import Mathlib

/-!
Verification of the async-array chain-execution engine (src/index.js).

The engine is embedded shallowly: JavaScript values become `JSVal`, the
mutable `StepState` becomes an explicit record threaded through transition
functions, and the callback-driven control flow becomes either a fold over
an explicit list of continuation events (parallel dispatch) or a structural
recursion over the remaining elements (serial dispatch).  Worker callbacks
are abstracted by the pair (error, data) their continuation eventually
supplies for each element.
-/

/-- JavaScript values, restricted to the shapes the library manipulates. -/
inductive JSVal where
  | num (n : Int)
  | str (s : String)
  | bool (b : Bool)
  | null
  | undef
deriving DecidableEq, Repr

/-- JavaScript truthiness of a value (used to state the spec's "truthy"
keep condition for filter workers). -/
def jsTruthy : JSVal → Bool
  | .num n => n != 0
  | .str s => s != ""
  | .bool b => b
  | .null => false
  | .undef => false

/-- Numeric view of a value, as used by the sort comparator
`Filter.SORTFN = function (a, b) { return a - b }` on accumulated indices. -/
def toInt : JSVal → Int
  | .num n => n
  | _ => 0

/-- Nonnegative index view of a value, for `state.array[result[i]]`. -/
def toIdx (v : JSVal) : Nat := (toInt v).toNat

/-- JavaScript assignment `arr[i] = v` on an array modelled as a list:
within bounds it overwrites, out of bounds it pads with `undefined` holes
and extends the length to `i + 1`. -/
def setIdx (l : List JSVal) (i : Nat) (v : JSVal) : List JSVal :=
  if i < l.length then l.set i v
  else l ++ List.replicate (i - l.length) JSVal.undef ++ [v]

/-- The `result || array` expression in the `StepState` constructor
(src/index.js line 301).  `none` models passing `undefined` (falsy, so the
input array is used); `some l` models passing an array value, which in
JavaScript is always truthy — including the empty array `[]`. -/
def jsOrList (result : Option (List JSVal)) (array : List JSVal) : List JSVal :=
  match result with
  | some l => l
  | none => array

/-- The three step kinds of the library: base `Step` (for-each), `Map`,
and `Filter`. -/
inductive StepKind where
  | base
  | map
  | filter
deriving DecidableEq, Repr

/-- The result-container write each kind performs at the start of its
`next` override, before delegating to `Step.prototype.next`:
base `Step` has no override; `Map.prototype.next` does
`state.result[i] = data` (line 331); `Filter.prototype.next` does
`if (data === true) state.result.push(i)` (lines 369-371). -/
def writeResult (k : StepKind) (result : List JSVal) (i : Nat) (data : JSVal) :
    List JSVal :=
  match k with
  | .base => result
  | .map => setIdx result i data
  | .filter => if data = JSVal.bool true then result ++ [JSVal.num i] else result

/-- Per-step run state, from the `StepState` constructor
(src/index.js lines 297-305): the input array, the result container,
the completed-slot counter and the done latch. -/
structure StepState where
  array : List JSVal
  result : List JSVal
  count : Nat
  done : Bool
deriving DecidableEq, Repr

/-- Fresh per-step state as created by `Step.prototype.run` line 271:
`new StepState(this, oper_state, array, [])`.  The fourth argument is the
empty array, which is truthy, so `result || array` yields `[]`. -/
def StepState.init (arr : List JSVal) : StepState :=
  { array := arr, result := jsOrList (some []) arr, count := 0, done := false }

/-- What `Step.prototype.next` does after updating the state: nothing,
finalize the step via `this.done(error, state)`, or (serial mode) invoke
the worker for the next element. -/
inductive NextOutcome where
  | none
  | finalize (error : Option JSVal)
  | callNext (elem : JSVal) (idx : Nat)
deriving DecidableEq, Repr

/-- One continuation call, `{Step,Map,Filter}.prototype.next`
(src/index.js lines 221-246, 330-333, 368-374).  The kind-specific result
write happens first (Map and Filter write before delegating), then the
done guard, the error check, the counter increment, and the
serial/parallel completion tests, mirroring the source line by line. -/
def kindNext (k : StepKind) (serial : Bool) (st : StepState) (i : Nat)
    (error : Option JSVal) (data : JSVal) : StepState × NextOutcome :=
  let st := { st with result := writeResult k st.result i data }
  if st.done then
    (st, NextOutcome.none)
  else if error.isSome then
    ({ st with done := true }, NextOutcome.finalize error)
  else
    let st := { st with count := st.count + 1 }
    if serial then
      if st.array.length ≤ st.count then
        ({ st with done := true }, NextOutcome.finalize Option.none)
      else
        (st, NextOutcome.callNext (st.array.getD st.count JSVal.undef) st.count)
    else if st.array.length ≤ st.count then
      ({ st with done := true }, NextOutcome.finalize Option.none)
    else
      (st, NextOutcome.none)

/-- Insertion of one value into a list sorted ascending by `toInt`. -/
def sortedInsert (v : JSVal) : List JSVal → List JSVal
  | [] => [v]
  | x :: xs => if toInt v ≤ toInt x then v :: x :: xs else x :: sortedInsert v xs

/-- Models `state.result.sort(Filter.SORTFN)` (src/index.js line 384):
ascending numeric sort of the accumulated indices. -/
def sortIndices (l : List JSVal) : List JSVal := l.foldr sortedInsert []

/-- The result list delivered when a step finalizes:
`Filter.prototype.done` (lines 382-393) sorts the kept indices and maps
them back to input elements, but only when there was no error and the step
did not run serial; all other cases deliver the raw result container,
which `Step.prototype.done` then wraps into a fresh Sequence (an
element-for-element copy, identity on lists). -/
def finalizeResult (k : StepKind) (serial : Bool) (error : Option JSVal)
    (arr : List JSVal) (result : List JSVal) : List JSVal :=
  match k with
  | .filter =>
      if error.isNone && !serial then
        (sortIndices result).map (fun v => arr.getD (toIdx v) JSVal.undef)
      else result
  | _ => result

/-- A continuation event for parallel dispatch: the element index the
continuation closure captured, and the (error, data) pair it was called
with. -/
abbrev Event := Nat × Option JSVal × JSVal

/-- Accumulator for a parallel step run: the mutable `StepState` plus the
finalization observed so far, `some (error, delivered)` once
`this.done(error, state)` has run. -/
structure ParAcc where
  st : StepState
  fin : Option (Option JSVal × List JSVal)

/-- Processing one arriving continuation call in parallel mode.  On the
finalize outcome, `Filter.prototype.done` replaces `state.result` and
`Step.prototype.done` wraps it; the delivered list is recorded. -/
def parStep (k : StepKind) (acc : ParAcc) (ev : Event) : ParAcc :=
  match kindNext k false acc.st ev.1 ev.2.1 ev.2.2 with
  | (st1, NextOutcome.finalize err) =>
      let delivered := finalizeResult k false err st1.array st1.result
      { st := { st1 with result := delivered }, fin := some (err, delivered) }
  | (st1, _) => { st := st1, fin := acc.fin }

/-- A whole parallel step run (`Step.prototype.run`, lines 280-284):
`Array.prototype.forEach` dispatches the worker once per index, then the
continuations fire in arrival order `evs`. -/
structure ParRun where
  invokes : List Nat
  st : StepState
  fin : Option (Option JSVal × List JSVal)

/-- Run a parallel step over input `arr` with continuation arrival order
`evs`. -/
def runParStep (k : StepKind) (arr : List JSVal) (evs : List Event) : ParRun :=
  let acc := evs.foldl (parStep k) ⟨StepState.init arr, Option.none⟩
  ⟨List.range arr.length, acc.st, acc.fin⟩

/-- Observable events of a serial step run: a worker invocation
(`this.callback(elem, idx, serialfn)`) or a continuation firing
(`serialfn(error, data)`). -/
inductive TraceEv where
  | invoke (i : Nat) (elem : JSVal)
  | cont (i : Nat) (error : Option JSVal) (data : JSVal)
deriving DecidableEq, Repr

/-- The serial driving loop (`Step.prototype.run` lines 273-277 together
with the serial branch of `Step.prototype.next` lines 233-240).  At each
iteration `idx` equals `state.count`; `elem` is `state.array[idx]` and
`rest` the elements after it, so `rest = []` is exactly the source's
`state.count >= state.array.length` test after the increment.  The worker
for `(elem, idx)` is invoked and its continuation fires with `w elem idx`;
`serialfn` passes `state.count` (here `idx`) as the element index, the
kind-specific result write runs, then the error check and the
completion-or-advance decision. -/
def runSerialFrom (k : StepKind) (w : JSVal → Nat → Option JSVal × JSVal)
    (arr : List JSVal) :
    Nat → JSVal → List JSVal → List JSVal →
    Option (Option JSVal × List JSVal) × List TraceEv
  | idx, elem, rest, result =>
    let err := (w elem idx).1
    let data := (w elem idx).2
    let here := [TraceEv.invoke idx elem, TraceEv.cont idx err data]
    let result1 := writeResult k result idx data
    if err.isSome then
      (some (err, finalizeResult k true err arr result1), here)
    else
      match rest with
      | [] => (some (Option.none, finalizeResult k true Option.none arr result1), here)
      | e :: rest1 =>
          let next := runSerialFrom k w arr (idx + 1) e rest1 result1
          (next.1, here ++ next.2)

/-- A whole serial step run (`Step.prototype.run`, serial branch):
fresh state with result `[]`, then `this.callback(array[0], 0, serialfn)`
— note the worker is invoked on `array[0]` even when the array is empty,
in which case the element is `undefined`. -/
def runSerialStep (k : StepKind) (w : JSVal → Nat → Option JSVal × JSVal)
    (arr : List JSVal) : Option (Option JSVal × List JSVal) × List TraceEv :=
  runSerialFrom k w arr 0 (arr.getD 0 JSVal.undef) (arr.drop 1)
    (jsOrList (some []) arr)

/-- How a step's continuations are driven: serial steps generate their own
continuation calls from the worker behaviour `w`; parallel steps receive
an external arrival order of continuation events. -/
inductive Driver where
  | ser (w : JSVal → Nat → Option JSVal × JSVal)
  | par (evs : List Event)

/-- One step of a built chain: its kind, the number of completion
callbacks registered on it via `done`, and its driver. -/
structure ChainStep where
  kind : StepKind
  nCallbacks : Nat
  driver : Driver

/-- The finalization a step run delivers, if any: `some (error, result)`
exactly when `Step.prototype.done` ran. -/
def runStepFin (cs : ChainStep) (arr : List JSVal) :
    Option (Option JSVal × List JSVal) :=
  match cs.driver with
  | .ser w => (runSerialStep cs.kind w arr).1
  | .par evs => (runParStep cs.kind arr evs).fin

/-- Observable chain events: a step starting to run, a completion callback
registered on a step being invoked with `(error, result)` (the loop in
`Step.prototype.done`, lines 257-259), and the never-emitted invocation of
a final callback passed to `exec`. -/
inductive LogEntry where
  | stepStarted (stepIdx : Nat)
  | callbackCalled (stepIdx : Nat) (cbIdx : Nat) (error : Option JSVal)
      (result : List JSVal)
  | finalCallbackCalled
deriving DecidableEq, Repr

/-- Running the chain from step `idx` with input `arr`
(`Operation.prototype._next`, lines 93-102, plus `Step.prototype.done`):
when a step finalizes, its registered callbacks fire in order with
`(error, result)`; on error `_next` returns immediately so no further step
runs; on success the next step, if any, runs with the delivered result as
its input.  A step that never finalizes stalls the chain. -/
def runChainFrom (idx : Nat) (arr : List JSVal) :
    List ChainStep → List LogEntry
  | [] => []
  | cs :: rest =>
      LogEntry.stepStarted idx ::
      match runStepFin cs arr with
      | Option.none => []
      | some (err, res) =>
          ((List.range cs.nCallbacks).map
            (fun c => LogEntry.callbackCalled idx c err res)) ++
          (match err with
           | some _ => []
           | Option.none => runChainFrom (idx + 1) res rest)

/-- A built operation: the source array and the appended steps
(`Operation` constructor, lines 72-75). -/
structure Operation where
  array : List JSVal
  steps : List ChainStep

/-- Models `Operation.prototype.exec` (lines 177-181): creates a fresh
`OperState` and runs step 0 with the operation's array.  The source
function declares no parameters, so any final-callback argument supplied
at the call site is never read; it is modelled here as an ignored
argument. -/
def Operation.exec (op : Operation) (_finalCb : JSVal) : List LogEntry :=
  runChainFrom 0 op.array op.steps

/-- The persistent world around an operation: the built operation and the
accumulated outcomes of its executions. -/
structure World where
  oper : Operation
  runs : List (List LogEntry)

/-- One invocation of the execution entry point: a fresh `OperState` and
fresh `StepState`s are created (`StepState.init`), the built operation is
only read, and the run's outcome is recorded. -/
def execWorld (w : World) (finalCb : JSVal) : World :=
  { oper := w.oper, runs := w.runs ++ [w.oper.exec finalCb] }

/-- The indices of the worker-invocation events of a trace. -/
def traceInvokes (tr : List TraceEv) : List Nat :=
  tr.filterMap (fun e => match e with | .invoke i _ => some i | _ => Option.none)

/-- A worker that keeps exactly the non-string elements: its continuation
is called with `(null, true)` on non-strings and with no second argument
(undefined) on strings, as in the reference test driver. -/
def wKeepNonString : JSVal → Nat → Option JSVal × JSVal :=
  fun e _ =>
    (Option.none, match e with | .str _ => JSVal.undef | _ => JSVal.bool true)

/-- The sequence `[1, 2, "three", 4]` of the reference test driver. -/
def seq1234 : List JSVal :=
  [JSVal.num 1, JSVal.num 2, JSVal.str "three", JSVal.num 4]

/-- A worker whose continuation always reports success with no value. -/
def wOk : JSVal → Nat → Option JSVal × JSVal :=
  fun _ _ => (Option.none, JSVal.undef)

/-- A worker whose continuation always reports success with the truthy,
non-boolean value `1`. -/
def wTruthyOne : JSVal → Nat → Option JSVal × JSVal :=
  fun _ _ => (Option.none, JSVal.num 1)

/-- In-order success events with no data, one per element of a
three-element input. -/
def evsOk3 : List Event :=
  [(0, Option.none, JSVal.undef), (1, Option.none, JSVal.undef),
   (2, Option.none, JSVal.undef)]

/-- Claim C1: a serial filter step over `[1, 2, "three", 4]` with a worker
keeping the non-string elements delivers to its completion callbacks the
list of kept indices `[0, 1, 3]`, not the kept elements `[1, 2, 4]`:
`Filter.prototype.done` guards its index-to-element mapping with
`!error && !this.serial`, so the serial mode skips the mapping entirely. -/
theorem filterSerial_returns_indices :
    (runSerialStep .filter wKeepNonString seq1234).1
      = some (Option.none, [JSVal.num 0, JSVal.num 1, JSVal.num 3])
    ∧ [JSVal.num 0, JSVal.num 1, JSVal.num 3]
      ≠ [JSVal.num 1, JSVal.num 2, JSVal.num 4] := by
  decide

/-- Claim C2: a for-each step over `[1, 2, 3]` whose workers all succeed
delivers the empty Sequence, not its input, to its completion callbacks
and to the next step: `Step.prototype.run` passes `[]` for the result
container and `[]` is truthy in JavaScript, so the `result || array`
default in the `StepState` constructor (which would have produced the
input Sequence) never applies.  The last two conjuncts exhibit that dead
default: only a falsy (absent) result argument would select the input
array. -/
theorem forEach_result_empty :
    (runSerialStep .base wOk [JSVal.num 1, JSVal.num 2, JSVal.num 3]).1
      = some (Option.none, [])
    ∧ (runParStep .base [JSVal.num 1, JSVal.num 2, JSVal.num 3] evsOk3).fin
      = some (Option.none, [])
    ∧ runChainFrom 0 [JSVal.num 1, JSVal.num 2, JSVal.num 3]
        [⟨.base, 1, .ser wOk⟩, ⟨.base, 1, .ser wOk⟩]
      = [LogEntry.stepStarted 0, LogEntry.callbackCalled 0 0 Option.none [],
         LogEntry.stepStarted 1, LogEntry.callbackCalled 1 0 Option.none []]
    ∧ ([] : List JSVal) ≠ [JSVal.num 1, JSVal.num 2, JSVal.num 3]
    ∧ jsOrList Option.none [JSVal.num 1, JSVal.num 2, JSVal.num 3]
      = [JSVal.num 1, JSVal.num 2, JSVal.num 3]
    ∧ jsOrList (some []) [JSVal.num 1, JSVal.num 2, JSVal.num 3] = [] := by
  decide

/-- Counterexample to claim C5 at the empty Sequence: a serial for-each
run over `[]` still invokes the worker once (on the undefined element
`array[0]` at index 0) instead of zero times, and a parallel for-each run
over `[]` never invokes its completion callback at all. -/
theorem forEach_empty_cex :
    (traceInvokes (runSerialStep .base wOk []).2).length = 1
    ∧ runChainFrom 0 [] [⟨.base, 1, .par []⟩] = [LogEntry.stepStarted 0] := by
  decide

/-- Counterexample to claim C6: the worker's continuation supplies the
truthy value `1`, yet the element is dropped — the serial filter over
`[5]` delivers the empty kept-index list, because `Filter.prototype.next`
keeps only on `data === true`. -/
theorem filter_truthy_dropped_cex :
    jsTruthy (JSVal.num 1) = true
    ∧ (runSerialStep .filter wTruthyOne [JSVal.num 5]).1
      = some (Option.none, []) := by
  decide

/-- Counterexample to claim C7: on a map step whose state has already
latched done, a continuation call still writes into the result container
(`Map.prototype.next` performs `state.result[i] = data` before delegating
to the done guard), so the result container does not stay unchanged. -/
theorem late_continuation_writes_cex :
    (⟨[JSVal.num 1], [JSVal.num 5], 1, true⟩ : StepState).done = true
    ∧ (kindNext .map false ⟨[JSVal.num 1], [JSVal.num 5], 1, true⟩ 0
        Option.none (JSVal.num 7)).1.result = [JSVal.num 7]
    ∧ [JSVal.num 7] ≠ [JSVal.num 5] := by
  decide

/-- Counterexample to claim C8 at the empty Sequence: a serial step over
`[]` invokes a worker (at index 0, on the undefined element), so the
workers invoked are `[0]` and not the strict index order `0..n-1`, which
for `n = 0` is empty. -/
theorem serial_order_empty_cex :
    traceInvokes (runSerialStep .base wOk []).2 = [0]
    ∧ List.range (List.length ([] : List JSVal)) = []
    ∧ ([0] : List Nat) ≠ [] := by
  decide

/-- The accumulated result container after a serial run over the elements
`elems` starting at index `idx`, applying each kind's per-completion write
in order. -/
def serialResultFold (k : StepKind) (w : JSVal → Nat → Option JSVal × JSVal) :
    Nat → List JSVal → List JSVal → List JSVal
  | _, [], r => r
  | idx, e :: t, r =>
      serialResultFold k w (idx + 1) t (writeResult k r idx (w e idx).2)

/-- The trace of a serial run over the elements `elems` starting at index
`idx`: a strict alternation of one worker invocation and the firing of its
continuation, element by element in index order. -/
def serialTraceFrom (w : JSVal → Nat → Option JSVal × JSVal) :
    Nat → List JSVal → List TraceEv
  | _, [] => []
  | idx, e :: t =>
      TraceEv.invoke idx e :: TraceEv.cont idx (w e idx).1 (w e idx).2 ::
        serialTraceFrom w (idx + 1) t

/-- The kept-index list of a filter run over the elements `elems` starting
at index `idx`: index `idx + j` is recorded exactly when the worker's
continuation for element `j` supplies the strict boolean `true`. -/
def keptIndicesFrom (w : JSVal → Nat → Option JSVal × JSVal) :
    Nat → List JSVal → List JSVal
  | _, [] => []
  | idx, e :: t =>
      (if (w e idx).2 = JSVal.bool true then [JSVal.num idx] else []) ++
        keptIndicesFrom w (idx + 1) t

/-- Checks that a trace never has two worker invocations without an
intervening continuation: the flag records whether an element is currently
in flight. -/
def oneInFlightOK : Bool → List TraceEv → Bool
  | _, [] => true
  | pending, TraceEv.invoke _ _ :: t => !pending && oneInFlightOK true t
  | pending, TraceEv.cont _ _ _ :: t => pending && oneInFlightOK false t

/-- The result container after processing the parallel continuation events
`evs` in arrival order, starting from container `r`. -/
def resultFold (k : StepKind) (evs : List Event) (r : List JSVal) : List JSVal :=
  evs.foldl (fun r e => writeResult k r e.1 e.2.2) r

/-- The contract-following continuation events of a map step over `n`
elements in input order: for each index `i`, a success carrying the value
`f i` the worker produced for element `i`. -/
def mapEvents (f : Nat → JSVal) (n : Nat) : List Event :=
  (List.range n).map (fun i => (i, Option.none, f i))

/-- A serial run whose workers all succeed visits every remaining element:
it finalizes with no error, delivers the accumulated result container, and
its trace is the strict invoke/continuation alternation. -/
theorem runSerialFrom_ok (k : StepKind) (w : JSVal → Nat → Option JSVal × JSVal)
    (arr : List JSVal) (hw : ∀ e i, (w e i).1 = Option.none) :
    ∀ (rest : List JSVal) (idx : Nat) (elem : JSVal) (result : List JSVal),
      runSerialFrom k w arr idx elem rest result =
        (some (Option.none, serialResultFold k w idx (elem :: rest) result),
         serialTraceFrom w idx (elem :: rest)) := by
  intro rest
  induction rest with
  | nil =>
      intro idx elem result
      simp [runSerialFrom, hw, serialResultFold, serialTraceFrom,
        finalizeResult]
      cases k <;> simp
  | cons e t ih =>
      intro idx elem result
      simp [runSerialFrom, hw, serialResultFold, serialTraceFrom, ih]

/-- A nonempty list is its JavaScript head `arr[0]` followed by the
remaining elements. -/
theorem getD_cons_drop (arr : List JSVal) (h : arr ≠ []) :
    arr.getD 0 JSVal.undef :: arr.drop 1 = arr := by
  cases arr with
  | nil => exact absurd rfl h
  | cons a t => rfl

/-- A whole serial step run over a nonempty input with all-success workers
finalizes with no error, delivering the per-kind accumulated container,
with the strict alternating trace. -/
theorem runSerialStep_ok (k : StepKind) (w : JSVal → Nat → Option JSVal × JSVal)
    (arr : List JSVal) (hw : ∀ e i, (w e i).1 = Option.none) (h : arr ≠ []) :
    runSerialStep k w arr =
      (some (Option.none, serialResultFold k w 0 arr []),
       serialTraceFrom w 0 arr) := by
  have hcons := getD_cons_drop arr h
  rw [runSerialStep, jsOrList]
  rw [show arr.drop 1 = arr.tail by cases arr <;> rfl] at hcons ⊢
  cases arr with
  | nil => exact absurd rfl h
  | cons a t =>
      simp only [List.tail_cons] at hcons ⊢
      rw [runSerialFrom_ok k w (a :: t) hw t 0 (List.getD (a :: t) 0 JSVal.undef) []]
      rw [hcons]

/-- A base (for-each) step never writes into its result container. -/
theorem serialResultFold_base (w : JSVal → Nat → Option JSVal × JSVal) :
    ∀ (l : List JSVal) (idx : Nat) (r : List JSVal),
      serialResultFold .base w idx l r = r := by
  intro l
  induction l with
  | nil => intro idx r; rfl
  | cons e t ih => intro idx r; simp [serialResultFold, writeResult, ih]

/-- A filter step's container accumulates exactly the indices whose
continuation data was the strict boolean `true`, in index order. -/
theorem serialResultFold_filter (w : JSVal → Nat → Option JSVal × JSVal) :
    ∀ (l : List JSVal) (idx : Nat) (r : List JSVal),
      serialResultFold .filter w idx l r = r ++ keptIndicesFrom w idx l := by
  intro l
  induction l with
  | nil => intro idx r; simp [serialResultFold, keptIndicesFrom]
  | cons e t ih =>
      intro idx r
      simp only [serialResultFold, keptIndicesFrom, writeResult, ih]
      by_cases hd : (w e idx).2 = JSVal.bool true <;> simp [hd]

/-- The invocation indices of the serial trace over `l` starting at `idx`
are `idx, idx + 1, ...`, one per element. -/
theorem traceInvokes_serialTrace (w : JSVal → Nat → Option JSVal × JSVal) :
    ∀ (l : List JSVal) (idx : Nat),
      traceInvokes (serialTraceFrom w idx l) = List.range' idx l.length := by
  intro l
  induction l with
  | nil => intro idx; rfl
  | cons e t ih =>
      intro idx
      simp [serialTraceFrom, traceInvokes, List.range'] at ih ⊢
      exact ih (idx + 1)

/-- The serial trace always alternates invocation and continuation, so at
most one element is ever in flight. -/
theorem oneInFlight_serialTrace (w : JSVal → Nat → Option JSVal × JSVal) :
    ∀ (l : List JSVal) (idx : Nat),
      oneInFlightOK false (serialTraceFrom w idx l) = true := by
  intro l
  induction l with
  | nil => intro idx; rfl
  | cons e t ih => intro idx; simp [serialTraceFrom, oneInFlightOK, ih]

/-- A continuation call changes the result container exactly by the
kind-specific write, whatever else it does: the write in
`Map.prototype.next` and `Filter.prototype.next` precedes every check in
`Step.prototype.next`, and the base logic itself never touches the
container. -/
theorem kindNext_result (k : StepKind) (serial : Bool) (st : StepState)
    (i : Nat) (error : Option JSVal) (data : JSVal) :
    (kindNext k serial st i error data).1.result =
      writeResult k st.result i data := by
  simp only [kindNext]
  split_ifs <;> rfl

/-- Folding success events that do not yet reach the input length leaves
the step unlatched: the counter advances one per event, the container
accumulates the writes, and no finalization is recorded. -/
theorem par_fold_lt (k : StepKind) :
    ∀ (evs : List Event) (acc : ParAcc),
      (∀ e ∈ evs, e.2.1 = Option.none) → acc.st.done = false →
      acc.st.count + evs.length < acc.st.array.length →
      evs.foldl (parStep k) acc =
        ⟨⟨acc.st.array, resultFold k evs acc.st.result,
          acc.st.count + evs.length, false⟩, acc.fin⟩ := by
  intro evs
  induction evs with
  | nil =>
      intro acc _ hdone _
      obtain ⟨⟨ar, r, c, d⟩, f⟩ := acc
      simp only at hdone
      subst hdone
      simp [resultFold]
  | cons e t ih =>
      intro acc hall hdone hlen
      obtain ⟨⟨ar, r, c, d⟩, f⟩ := acc
      obtain ⟨i, err, data⟩ := e
      simp only at hdone hlen
      subst hdone
      have herr : err = Option.none := hall (i, err, data) (by simp)
      subst herr
      simp only [List.length_cons] at hlen
      have hlt : ¬ (ar.length ≤ c + 1) := by omega
      simp only [List.foldl_cons]
      have hstep : parStep k ⟨⟨ar, r, c, false⟩, f⟩ (i, Option.none, data) =
          ⟨⟨ar, writeResult k r i data, c + 1, false⟩, f⟩ := by
        simp [parStep, kindNext, hlt]
      rw [hstep]
      rw [ih ⟨⟨ar, writeResult k r i data, c + 1, false⟩, f⟩
        (fun e he => hall e (by simp [he])) rfl (by simp; omega)]
      simp [resultFold]
      omega

/-- Folding success events whose count exactly reaches the input length
latches the step at the last event and records exactly one finalization,
with no error and the per-kind delivered result. -/
theorem par_fold_eq (k : StepKind) :
    ∀ (evs : List Event) (acc : ParAcc), evs ≠ [] →
      (∀ e ∈ evs, e.2.1 = Option.none) → acc.st.done = false →
      acc.st.count + evs.length = acc.st.array.length →
      evs.foldl (parStep k) acc =
        ⟨⟨acc.st.array,
          finalizeResult k false Option.none acc.st.array
            (resultFold k evs acc.st.result),
          acc.st.count + evs.length, true⟩,
         some (Option.none,
           finalizeResult k false Option.none acc.st.array
             (resultFold k evs acc.st.result))⟩ := by
  intro evs
  induction evs with
  | nil => intro acc hne; exact absurd rfl hne
  | cons e t ih =>
      intro acc _ hall hdone hlen
      obtain ⟨⟨ar, r, c, d⟩, f⟩ := acc
      obtain ⟨i, err, data⟩ := e
      simp only at hdone
      subst hdone
      have herr : err = Option.none := hall (i, err, data) (by simp)
      subst herr
      simp only [List.length_cons] at hlen
      cases t with
      | nil =>
          have hge : ar.length ≤ c + 1 := by simp at hlen; omega
          simp only [List.foldl_cons, List.foldl_nil]
          have hstep : parStep k ⟨⟨ar, r, c, false⟩, f⟩ (i, Option.none, data) =
              ⟨⟨ar,
                finalizeResult k false Option.none ar (writeResult k r i data),
                c + 1, true⟩,
               some (Option.none,
                 finalizeResult k false Option.none ar
                   (writeResult k r i data))⟩ := by
            simp [parStep, kindNext, hge]
          rw [hstep]
          simp [resultFold]
      | cons e1 t1 =>
          have hlt : ¬ (ar.length ≤ c + 1) := by
            simp only [List.length_cons] at hlen; omega
          simp only [List.foldl_cons]
          have hstep : parStep k ⟨⟨ar, r, c, false⟩, f⟩ (i, Option.none, data) =
              ⟨⟨ar, writeResult k r i data, c + 1, false⟩, f⟩ := by
            simp [parStep, kindNext, hlt]
          rw [hstep]
          have := ih ⟨⟨ar, writeResult k r i data, c + 1, false⟩, f⟩
            (by simp) (fun x hx => hall x (by simp [hx])) rfl
            (by simp only [List.length_cons] at hlen ⊢; omega)
          simp only [List.foldl_cons] at this ⊢
          rw [this]
          simp only [resultFold, List.foldl_cons, List.length_cons]
          have harith : c + 1 + (t1.length + 1) = c + (t1.length + 1 + 1) := by
            omega
          rw [harith]

/-- Events arriving after the step has latched done are discarded: the
done guard in `Step.prototype.next` keeps the latch, the counter and the
recorded finalization unchanged (only the kind-specific container write
still happens). -/
theorem par_fold_done (k : StepKind) :
    ∀ (evs : List Event) (acc : ParAcc), acc.st.done = true →
      (evs.foldl (parStep k) acc).fin = acc.fin ∧
      (evs.foldl (parStep k) acc).st.done = true ∧
      (evs.foldl (parStep k) acc).st.count = acc.st.count ∧
      (evs.foldl (parStep k) acc).st.array = acc.st.array := by
  intro evs
  induction evs with
  | nil => intro acc hdone; exact ⟨rfl, hdone, rfl, rfl⟩
  | cons e t ih =>
      intro acc hdone
      obtain ⟨⟨ar, r, c, d⟩, f⟩ := acc
      simp only at hdone
      subst hdone
      have hstep : parStep k ⟨⟨ar, r, c, true⟩, f⟩ e =
          ⟨⟨ar, writeResult k r e.1 e.2.2, c, true⟩, f⟩ := by
        simp [parStep, kindNext]
      simp only [List.foldl_cons, hstep]
      exact ih ⟨⟨ar, writeResult k r e.1 e.2.2, c, true⟩, f⟩ rfl

/-- A continuation reporting an error to a step that has not latched done
finalizes the step immediately with that error: the latch is set, the
counter untouched, and the error with the result so far is delivered. -/
theorem parStep_error (k : StepKind) (ar r : List JSVal) (c : Nat)
    (f : Option (Option JSVal × List JSVal)) (i : Nat) (e d : JSVal) :
    parStep k ⟨⟨ar, r, c, false⟩, f⟩ (i, some e, d) =
      ⟨⟨ar, finalizeResult k false (some e) ar (writeResult k r i d), c, true⟩,
       some (some e, finalizeResult k false (some e) ar (writeResult k r i d))⟩ := by
  simp [parStep, kindNext]

/-- In a parallel run whose events carry a first error before the input
length is reached, the recorded finalization is exactly that error with
the result accumulated so far, whatever arrives afterwards. -/
theorem runParStep_first_error (k : StepKind) (arr : List JSVal)
    (pre post : List Event) (i : Nat) (e d : JSVal)
    (hpre : ∀ ev ∈ pre, ev.2.1 = Option.none)
    (hlen : pre.length < arr.length) :
    (runParStep k arr (pre ++ (i, some e, d) :: post)).fin =
      some (some e,
        finalizeResult k false (some e) arr
          (writeResult k (resultFold k pre []) i d)) := by
  have hinit : StepState.init arr = ⟨arr, [], 0, false⟩ := by
    simp [StepState.init, jsOrList]
  simp only [runParStep, hinit, List.foldl_append, List.foldl_cons]
  rw [par_fold_lt k pre ⟨⟨arr, [], 0, false⟩, Option.none⟩ hpre rfl
    (by simpa using hlen)]
  simp only [Nat.zero_add]
  rw [parStep_error]
  exact (par_fold_done k post _ rfl).1

/-- Claim C3: the first error a step observes latches it done and fires
every completion callback registered on that step exactly once with that
error and the result so far; the chain never advances past the failing
step, so no step after it runs and no completion callback registered on a
later step is ever invoked; and continuation calls arriving after the
latch (success or error) are discarded — the chain log is independent of
them.  Stated for a failing parallel step at any chain position `idx`
with any input `arr`, any trailing steps `rest`, any prefix `pre` of
successful completions short of the input length, and any two suffixes
`post`, `post'` of late completions. -/
theorem first_error_halts_chain (idx : Nat) (arr : List JSVal) (k : StepKind)
    (ncb : Nat) (rest : List ChainStep) (pre post post' : List Event)
    (i : Nat) (e d : JSVal)
    (hpre : ∀ ev ∈ pre, ev.2.1 = Option.none)
    (hlen : pre.length < arr.length) :
    ∃ R,
      runChainFrom idx arr (⟨k, ncb, .par (pre ++ (i, some e, d) :: post)⟩ :: rest)
        = LogEntry.stepStarted idx ::
          (List.range ncb).map
            (fun c => LogEntry.callbackCalled idx c (some e) R)
      ∧ runChainFrom idx arr (⟨k, ncb, .par (pre ++ (i, some e, d) :: post')⟩ :: rest)
        = LogEntry.stepStarted idx ::
          (List.range ncb).map
            (fun c => LogEntry.callbackCalled idx c (some e) R) := by
  refine ⟨finalizeResult k false (some e) arr
    (writeResult k (resultFold k pre []) i d), ?_, ?_⟩ <;>
    simp [runChainFrom, runStepFin,
      runParStep_first_error k arr pre _ i e d hpre hlen]

/-- Concrete instance of `first_error_halts_chain`: input `[1, 2]`, one
successful completion, then an error, then a late success; two callbacks
on the failing step and a later map step that never runs. -/
theorem first_error_halts_chain_witness :
    (∀ ev ∈ [((0 : Nat), (Option.none : Option JSVal), JSVal.undef)],
      ev.2.1 = (Option.none : Option JSVal))
    ∧ [((0 : Nat), (Option.none : Option JSVal), JSVal.undef)].length
        < [JSVal.num 1, JSVal.num 2].length
    ∧ ∃ R,
      runChainFrom 0 [JSVal.num 1, JSVal.num 2]
          (⟨.base, 2,
            .par ([(0, Option.none, JSVal.undef)] ++
              (1, some (JSVal.str "boom"), JSVal.undef) ::
                [(0, Option.none, JSVal.undef)])⟩ :: [⟨.map, 1, .par []⟩])
        = LogEntry.stepStarted 0 ::
          (List.range 2).map
            (fun c => LogEntry.callbackCalled 0 c (some (JSVal.str "boom")) R)
      ∧ runChainFrom 0 [JSVal.num 1, JSVal.num 2]
          (⟨.base, 2,
            .par ([(0, Option.none, JSVal.undef)] ++
              (1, some (JSVal.str "boom"), JSVal.undef) :: [])⟩ ::
            [⟨.map, 1, .par []⟩])
        = LogEntry.stepStarted 0 ::
          (List.range 2).map
            (fun c => LogEntry.callbackCalled 0 c (some (JSVal.str "boom")) R) :=
  ⟨by decide, by decide,
    first_error_halts_chain 0 [JSVal.num 1, JSVal.num 2] .base 2
      [⟨.map, 1, .par []⟩] [(0, Option.none, JSVal.undef)]
      [(0, Option.none, JSVal.undef)] [] 1 (JSVal.str "boom") JSVal.undef
      (by decide) (by decide)⟩

/-- Claim C7 (amended): a continuation call on a step that has latched
done raises no error and leaves the done latch, the completed-slot
counter, the input array and the chain control flow (the outcome is
`none`: no finalization, no next-element dispatch) unchanged; for a base
(for-each) step the state is entirely unchanged.  The result container,
however, is not protected: it still receives the kind-specific write
(map writes slot `i`; filter appends `i` when the data is strictly
`true`), which is why the original claim fails. -/
theorem late_continuation_discarded (k : StepKind) (serial : Bool)
    (st : StepState) (i : Nat) (error : Option JSVal) (data : JSVal)
    (h : st.done = true) :
    (kindNext k serial st i error data).2 = NextOutcome.none
    ∧ (kindNext k serial st i error data).1.count = st.count
    ∧ (kindNext k serial st i error data).1.done = true
    ∧ (kindNext k serial st i error data).1.array = st.array
    ∧ (kindNext k serial st i error data).1.result =
        writeResult k st.result i data
    ∧ (k = .base → (kindNext k serial st i error data).1 = st) := by
  refine ⟨?_, ?_, ?_, ?_, ?_, ?_⟩
  · simp [kindNext, h]
  · simp [kindNext, h]
  · simp [kindNext, h]
  · simp [kindNext, h]
  · simp [kindNext, h]
  · intro hk
    subst hk
    obtain ⟨a, r, c, d⟩ := st
    simp only at h
    subst h
    simp [kindNext, writeResult]

/-- Concrete instance of `late_continuation_discarded` on a latched-done
filter state receiving a late non-keeping success. -/
theorem late_continuation_discarded_witness :
    (⟨[JSVal.num 1], [JSVal.num 0], 1, true⟩ : StepState).done = true
    ∧ ((kindNext .filter false ⟨[JSVal.num 1], [JSVal.num 0], 1, true⟩ 0
          Option.none JSVal.undef).2 = NextOutcome.none
      ∧ (kindNext .filter false ⟨[JSVal.num 1], [JSVal.num 0], 1, true⟩ 0
          Option.none JSVal.undef).1.count =
          (⟨[JSVal.num 1], [JSVal.num 0], 1, true⟩ : StepState).count
      ∧ (kindNext .filter false ⟨[JSVal.num 1], [JSVal.num 0], 1, true⟩ 0
          Option.none JSVal.undef).1.done = true
      ∧ (kindNext .filter false ⟨[JSVal.num 1], [JSVal.num 0], 1, true⟩ 0
          Option.none JSVal.undef).1.array =
          (⟨[JSVal.num 1], [JSVal.num 0], 1, true⟩ : StepState).array
      ∧ (kindNext .filter false ⟨[JSVal.num 1], [JSVal.num 0], 1, true⟩ 0
          Option.none JSVal.undef).1.result =
          writeResult .filter
            (⟨[JSVal.num 1], [JSVal.num 0], 1, true⟩ : StepState).result 0
            JSVal.undef
      ∧ (StepKind.filter = StepKind.base →
          (kindNext .filter false ⟨[JSVal.num 1], [JSVal.num 0], 1, true⟩ 0
            Option.none JSVal.undef).1 =
            ⟨[JSVal.num 1], [JSVal.num 0], 1, true⟩)) :=
  ⟨rfl,
    late_continuation_discarded .filter false
      ⟨[JSVal.num 1], [JSVal.num 0], 1, true⟩ 0 Option.none JSVal.undef rfl⟩

/-- Claim C8 (amended): over a nonempty Sequence, a serial step whose
workers all complete successfully invokes the workers in strict index
order `0, 1, ..., n-1`, has at most one element in flight at any time, and
its full trace is the strict alternation of each worker invocation with
the firing of that worker's continuation — so the worker for element
`i + 1` is only ever invoked after the continuation for element `i` has
fired.  (The nonemptiness restriction is forced: on an empty Sequence the
code still invokes one worker, on the undefined element at index 0.) -/
theorem serial_strict_order (k : StepKind)
    (w : JSVal → Nat → Option JSVal × JSVal) (arr : List JSVal)
    (hw : ∀ e i, (w e i).1 = Option.none) (h : arr ≠ []) :
    (runSerialStep k w arr).2 = serialTraceFrom w 0 arr
    ∧ traceInvokes (runSerialStep k w arr).2 = List.range arr.length
    ∧ oneInFlightOK false (runSerialStep k w arr).2 = true := by
  rw [runSerialStep_ok k w arr hw h]
  refine ⟨rfl, ?_, ?_⟩
  · rw [traceInvokes_serialTrace w arr 0, List.range_eq_range']
  · exact oneInFlight_serialTrace w arr 0

/-- Concrete instance of `serial_strict_order`: a serial map step over
`[1, 2]` with always-succeeding workers. -/
theorem serial_strict_order_witness :
    (∀ e i, (wOk e i).1 = Option.none)
    ∧ [JSVal.num 1, JSVal.num 2] ≠ []
    ∧ ((runSerialStep .map wOk [JSVal.num 1, JSVal.num 2]).2 =
        serialTraceFrom wOk 0 [JSVal.num 1, JSVal.num 2]
      ∧ traceInvokes (runSerialStep .map wOk [JSVal.num 1, JSVal.num 2]).2 =
        List.range [JSVal.num 1, JSVal.num 2].length
      ∧ oneInFlightOK false
          (runSerialStep .map wOk [JSVal.num 1, JSVal.num 2]).2 = true) :=
  ⟨fun _ _ => rfl, by decide,
    serial_strict_order .map wOk [JSVal.num 1, JSVal.num 2]
      (fun _ _ => rfl) (by decide)⟩

/-- Claim C6 (amended): a filter element is kept exactly when its worker
calls the continuation with the second argument strictly equal to the
boolean `true`; every other value — including truthy values such as `1` —
drops the element.  First conjunct: a serial filter run over a nonempty
input with all-success workers delivers precisely the indices whose
continuation data was strictly `true`, in index order.  Second conjunct:
at the transition level, any filter continuation call appends index `i`
to the result container exactly when its data is strictly `true`. -/
theorem filter_keep_strict_true (w : JSVal → Nat → Option JSVal × JSVal)
    (arr : List JSVal) (hw : ∀ e i, (w e i).1 = Option.none) (h : arr ≠ []) :
    (runSerialStep .filter w arr).1 =
      some (Option.none, keptIndicesFrom w 0 arr)
    ∧ (∀ (serial : Bool) (st : StepState) (i : Nat) (error : Option JSVal)
        (data : JSVal),
        (kindNext .filter serial st i error data).1.result =
          if data = JSVal.bool true then st.result ++ [JSVal.num i]
          else st.result) := by
  constructor
  · rw [runSerialStep_ok .filter w arr hw h]
    rw [serialResultFold_filter w arr 0 []]
    rfl
  · intro serial st i error data
    rw [kindNext_result]
    rfl

/-- Concrete instance of `filter_keep_strict_true`: the serial filter over
`[1, 2, "three", 4]` keeping non-string elements delivers the kept indices
`0, 1, 3`. -/
theorem filter_keep_strict_true_witness :
    (∀ e i, (wKeepNonString e i).1 = Option.none)
    ∧ seq1234 ≠ []
    ∧ ((runSerialStep .filter wKeepNonString seq1234).1 =
        some (Option.none, keptIndicesFrom wKeepNonString 0 seq1234)
      ∧ (∀ (serial : Bool) (st : StepState) (i : Nat) (error : Option JSVal)
          (data : JSVal),
          (kindNext .filter serial st i error data).1.result =
            if data = JSVal.bool true then st.result ++ [JSVal.num i]
            else st.result)) :=
  ⟨fun _ _ => rfl, by decide,
    filter_keep_strict_true wKeepNonString seq1234 (fun _ _ => rfl)
      (by decide)⟩

/-- A base (for-each) step's parallel event processing never writes the
result container. -/
theorem resultFold_base : ∀ (evs : List Event) (r : List JSVal),
    resultFold .base evs r = r := by
  intro evs
  induction evs with
  | nil => intro r; rfl
  | cons e t ih => intro r; exact ih r

/-- A parallel base step over a nonempty input whose continuation events
are exactly one success per element finalizes with no error and delivers
the (empty) result container. -/
theorem runParStep_base_ok (arr : List JSVal) (evs : List Event)
    (h : arr ≠ []) (hevs : ∀ e ∈ evs, e.2.1 = Option.none)
    (hlen : evs.length = arr.length) :
    (runParStep .base arr evs).fin = some (Option.none, []) := by
  have hne : evs ≠ [] := by
    intro hcontra
    subst hcontra
    simp at hlen
    exact h (List.length_eq_zero.mp hlen.symm)
  have hinit : StepState.init arr = ⟨arr, [], 0, false⟩ := by
    simp [StepState.init, jsOrList]
  simp only [runParStep, hinit]
  rw [par_fold_eq .base evs ⟨⟨arr, [], 0, false⟩, Option.none⟩ hne hevs rfl
    (by simpa using hlen)]
  simp [finalizeResult, resultFold_base]

/-- Claim C5 (amended): over a nonempty Sequence of length `n`, a for-each
chain invokes the worker exactly `n` times in serial mode (counted on the
run trace) and dispatches exactly `n` worker invocations in parallel mode,
and once all `n` continuations have fired successfully every completion
callback registered on the step is invoked exactly once with a null error
(the chain log lists each registered callback once, with no error).  The
nonemptiness restriction is forced: over the empty Sequence the serial
code still invokes the worker once, and the parallel code never invokes
the completion callback. -/
theorem forEach_counts (w : JSVal → Nat → Option JSVal × JSVal)
    (arr : List JSVal) (evs : List Event) (ncb : Nat)
    (hw : ∀ e i, (w e i).1 = Option.none) (h : arr ≠ [])
    (hevs : ∀ e ∈ evs, e.2.1 = Option.none)
    (hlen : evs.length = arr.length) :
    (traceInvokes (runSerialStep .base w arr).2).length = arr.length
    ∧ runChainFrom 0 arr [⟨.base, ncb, .ser w⟩]
        = LogEntry.stepStarted 0 ::
          (List.range ncb).map
            (fun c => LogEntry.callbackCalled 0 c Option.none [])
    ∧ (runParStep .base arr evs).invokes.length = arr.length
    ∧ runChainFrom 0 arr [⟨.base, ncb, .par evs⟩]
        = LogEntry.stepStarted 0 ::
          (List.range ncb).map
            (fun c => LogEntry.callbackCalled 0 c Option.none []) := by
  refine ⟨?_, ?_, ?_, ?_⟩
  · rw [runSerialStep_ok .base w arr hw h]
    simp [traceInvokes_serialTrace w arr 0]
  · rw [runChainFrom, runStepFin]
    simp only [runSerialStep_ok .base w arr hw h, serialResultFold_base]
    simp [runChainFrom]
  · simp [runParStep]
  · rw [runChainFrom, runStepFin]
    simp only [runParStep_base_ok arr evs h hevs hlen]
    simp [runChainFrom]

/-- Concrete instance of `forEach_counts`: a for-each chain over `[1, 2]`
with one registered completion callback, parallel completions arriving out
of order. -/
theorem forEach_counts_witness :
    (∀ e i, (wOk e i).1 = Option.none)
    ∧ [JSVal.num 1, JSVal.num 2] ≠ []
    ∧ (∀ e ∈ [((1 : Nat), (Option.none : Option JSVal), JSVal.undef),
        ((0 : Nat), (Option.none : Option JSVal), JSVal.undef)],
        e.2.1 = (Option.none : Option JSVal))
    ∧ [((1 : Nat), (Option.none : Option JSVal), JSVal.undef),
        ((0 : Nat), (Option.none : Option JSVal), JSVal.undef)].length
      = [JSVal.num 1, JSVal.num 2].length
    ∧ ((traceInvokes (runSerialStep .base wOk [JSVal.num 1, JSVal.num 2]).2).length
        = [JSVal.num 1, JSVal.num 2].length
      ∧ runChainFrom 0 [JSVal.num 1, JSVal.num 2] [⟨.base, 1, .ser wOk⟩]
          = LogEntry.stepStarted 0 ::
            (List.range 1).map
              (fun c => LogEntry.callbackCalled 0 c Option.none [])
      ∧ (runParStep .base [JSVal.num 1, JSVal.num 2]
            [(1, Option.none, JSVal.undef),
             (0, Option.none, JSVal.undef)]).invokes.length
          = [JSVal.num 1, JSVal.num 2].length
      ∧ runChainFrom 0 [JSVal.num 1, JSVal.num 2]
            [⟨.base, 1,
              .par [(1, Option.none, JSVal.undef),
                (0, Option.none, JSVal.undef)]⟩]
          = LogEntry.stepStarted 0 ::
            (List.range 1).map
              (fun c => LogEntry.callbackCalled 0 c Option.none [])) :=
  ⟨fun _ _ => rfl, by decide, by decide, by decide,
    forEach_counts wOk [JSVal.num 1, JSVal.num 2]
      [(1, Option.none, JSVal.undef), (0, Option.none, JSVal.undef)] 1
      (fun _ _ => rfl) (by decide) (by decide) (by decide)⟩

/-- Reading a cons cell at position 0. -/
theorem getD_cons_zero_js (a : JSVal) (t : List JSVal) :
    (a :: t).getD 0 JSVal.undef = a := rfl

/-- Reading a cons cell at a successor position. -/
theorem getD_cons_succ_js (a : JSVal) (t : List JSVal) (j : Nat) :
    (a :: t).getD (j + 1) JSVal.undef = t.getD j JSVal.undef := rfl

/-- Reading a replicate of undefined always gives undefined. -/
theorem getD_replicate_js (n j : Nat) :
    (List.replicate n JSVal.undef).getD j JSVal.undef = JSVal.undef := by
  by_cases h : j < n
  · rw [List.getD_eq_getElem _ _ (by simpa using h)]
    simp
  · rw [List.getD_eq_default _ _ (by simpa using h)]

/-- Reading after `List.set`: position `j` holds the written value exactly
when `j` is the written, in-bounds position. -/
theorem getD_set_js (l : List JSVal) : ∀ (i j : Nat) (v : JSVal),
    (l.set i v).getD j JSVal.undef =
      if i = j ∧ i < l.length then v else l.getD j JSVal.undef := by
  induction l with
  | nil =>
      intro i j v
      simp [List.getD]
  | cons a t ih =>
      intro i j v
      cases i with
      | zero =>
          cases j with
          | zero =>
              rw [show (a :: t).set 0 v = v :: t from rfl, getD_cons_zero_js,
                if_pos ⟨rfl, by simp⟩]
          | succ j1 =>
              rw [show (a :: t).set 0 v = v :: t from rfl, getD_cons_succ_js,
                getD_cons_succ_js, if_neg (by simp)]
      | succ i1 =>
          cases j with
          | zero =>
              rw [show (a :: t).set (i1 + 1) v = a :: t.set i1 v from rfl,
                getD_cons_zero_js, getD_cons_zero_js, if_neg (by simp)]
          | succ j1 =>
              rw [show (a :: t).set (i1 + 1) v = a :: t.set i1 v from rfl,
                getD_cons_succ_js, getD_cons_succ_js, ih i1 j1 v]
              by_cases hij : i1 = j1 ∧ i1 < t.length
              · rw [if_pos hij, if_pos (by simp only [List.length_cons]; omega)]
              · rw [if_neg hij, if_neg (by simp only [List.length_cons]; omega)]

/-- Reading the JavaScript write `arr[i] = v`: position `i` holds `v`, and
every other position is unchanged (out-of-range reads give undefined both
before and after, matching the padding holes). -/
theorem getD_setIdx (l : List JSVal) (i j : Nat) (v : JSVal) :
    (setIdx l i v).getD j JSVal.undef =
      if j = i then v else l.getD j JSVal.undef := by
  rw [setIdx]
  by_cases hi : i < l.length
  · rw [if_pos hi, getD_set_js]
    by_cases hij : j = i
    · subst hij; rw [if_pos ⟨rfl, hi⟩, if_pos rfl]
    · rw [if_neg (by omega), if_neg hij]
  · rw [if_neg hi, List.append_assoc]
    by_cases hj : j < l.length
    · rw [List.getD_append _ _ _ _ hj, if_neg (by omega)]
    · rw [List.getD_append_right _ _ _ _ (by omega)]
      by_cases hji : j = i
      · subst hji
        rw [List.getD_append_right _ _ _ _ (by simp), if_pos rfl]
        simp
      · rw [if_neg hji]
        by_cases hlt : j - l.length < i - l.length
        · rw [List.getD_append _ _ _ _ (by simpa using hlt),
            getD_replicate_js, List.getD_eq_default _ _ (by omega)]
        · rw [List.getD_append_right _ _ _ _ (by simpa using hlt)]
          rw [List.getD_eq_default [v] _ (by
            simp only [List.length_replicate, List.length_cons,
              List.length_nil]
            omega)]
          rw [List.getD_eq_default _ _ (by omega)]

/-- The length after the JavaScript write `arr[i] = v` when `i` is in
bounds. -/
theorem setIdx_length_lt (l : List JSVal) (i : Nat) (v : JSVal)
    (h : i < l.length) : (setIdx l i v).length = l.length := by
  rw [setIdx, if_pos h, List.length_set]

/-- The length after the JavaScript write `arr[i] = v` when `i` is out of
bounds: the array grows to `i + 1`. -/
theorem setIdx_length_ge (l : List JSVal) (i : Nat) (v : JSVal)
    (h : ¬ i < l.length) : (setIdx l i v).length = i + 1 := by
  rw [setIdx, if_neg h]
  simp
  omega

/-- A JavaScript write never shrinks the array. -/
theorem setIdx_length_mono (l : List JSVal) (i : Nat) (v : JSVal) :
    l.length ≤ (setIdx l i v).length := by
  by_cases h : i < l.length
  · rw [setIdx_length_lt l i v h]
  · rw [setIdx_length_ge l i v h]; omega

/-- A JavaScript write makes the written position in bounds. -/
theorem setIdx_length_idx (l : List JSVal) (i : Nat) (v : JSVal) :
    i + 1 ≤ (setIdx l i v).length := by
  by_cases h : i < l.length
  · rw [setIdx_length_lt l i v h]; omega
  · rw [setIdx_length_ge l i v h]

/-- Position `j` of the container after processing map events holds the
value produced for index `j` as soon as some processed event wrote index
`j`, and is untouched otherwise. -/
theorem fold_map_getD (f : Nat → JSVal) :
    ∀ (evs : List Event) (r : List JSVal) (j : Nat),
      (∀ e ∈ evs, e.2.2 = f e.1) →
      (resultFold .map evs r).getD j JSVal.undef =
        if j ∈ evs.map (fun e => e.1) then f j
        else r.getD j JSVal.undef := by
  intro evs
  induction evs with
  | nil => intro r j _; simp [resultFold]
  | cons e t ih =>
      intro r j hf
      have h1 : resultFold .map (e :: t) r =
          resultFold .map t (setIdx r e.1 e.2.2) := rfl
      rw [h1, ih _ j (fun x hx => hf x (List.mem_cons_of_mem e hx)),
        getD_setIdx]
      by_cases hmem : j ∈ t.map (fun e => e.1)
      · simp [hmem]
      · by_cases hje : j = e.1
        · simp [hmem, hje, (hf e (by simp)).symm]
        · simp [hmem, hje]

/-- Writes at indices below `n` keep the container length at most `n`. -/
theorem fold_map_length_le (n : Nat) :
    ∀ (evs : List Event) (r : List JSVal),
      (∀ e ∈ evs, e.1 < n) → r.length ≤ n →
      (resultFold .map evs r).length ≤ n := by
  intro evs
  induction evs with
  | nil => intro r _ hr; exact hr
  | cons e t ih =>
      intro r hidx hr
      have h1 : resultFold .map (e :: t) r =
          resultFold .map t (setIdx r e.1 e.2.2) := rfl
      rw [h1]
      apply ih _ (fun x hx => hidx x (List.mem_cons_of_mem e hx))
      by_cases hlt : e.1 < r.length
      · rw [setIdx_length_lt _ _ _ hlt]; exact hr
      · rw [setIdx_length_ge _ _ _ hlt]
        exact hidx e (by simp)

/-- Processing map events never shrinks the container. -/
theorem fold_map_length_mono :
    ∀ (evs : List Event) (r : List JSVal),
      r.length ≤ (resultFold .map evs r).length := by
  intro evs
  induction evs with
  | nil => intro r; exact Nat.le_refl _
  | cons e t ih =>
      intro r
      have h1 : resultFold .map (e :: t) r =
          resultFold .map t (setIdx r e.1 e.2.2) := rfl
      rw [h1]
      exact Nat.le_trans (setIdx_length_mono r e.1 e.2.2) (ih _)

/-- Every written index ends up in bounds of the container. -/
theorem fold_map_length_ge :
    ∀ (evs : List Event) (r : List JSVal) (j : Nat),
      j ∈ evs.map (fun e => e.1) →
      j + 1 ≤ (resultFold .map evs r).length := by
  intro evs
  induction evs with
  | nil => intro r j hj; simp at hj
  | cons e t ih =>
      intro r j hj
      have h1 : resultFold .map (e :: t) r =
          resultFold .map t (setIdx r e.1 e.2.2) := rfl
      rw [h1]
      rw [List.map_cons] at hj
      rcases List.mem_cons.mp hj with hje | hmem
      · rw [hje]
        exact Nat.le_trans (setIdx_length_idx r e.1 e.2.2) (fold_map_length_mono t _)
      · exact ih _ j hmem

/-- Claim C4: a parallel map step over a nonempty input of length `n`,
whose continuation events are any permutation of one success per index
carrying the value `f i` the worker produced for element `i`, finalizes
with no error and delivers the Sequence `[f 0, ..., f (n-1)]` — length `n`
with positional correspondence — regardless of arrival order. -/
theorem map_positional (arr : List JSVal) (f : Nat → JSVal) (evs : List Event)
    (hperm : evs.Perm (mapEvents f arr.length)) (h : arr ≠ []) :
    (runParStep .map arr evs).fin =
      some (Option.none, (List.range arr.length).map f) := by
  have hforms : ∀ e ∈ evs,
      e.1 < arr.length ∧ e.2.1 = Option.none ∧ e.2.2 = f e.1 := by
    intro e he
    have hmm : e ∈ mapEvents f arr.length := hperm.mem_iff.mp he
    simp only [mapEvents, List.mem_map, List.mem_range] at hmm
    obtain ⟨i, hi, rfl⟩ := hmm
    exact ⟨hi, rfl, rfl⟩
  have hlen : evs.length = arr.length := by
    simpa [mapEvents] using hperm.length_eq
  have hpos : 0 < arr.length := List.length_pos.mpr h
  have hne : evs ≠ [] := by
    intro hc
    subst hc
    simp at hlen
    omega
  have hmem : ∀ j, (j ∈ evs.map (fun e => e.1)) ↔ j < arr.length := by
    intro j
    have hp : (evs.map (fun e => e.1)).Perm
        ((mapEvents f arr.length).map (fun e => e.1)) := hperm.map _
    have hid : (mapEvents f arr.length).map (fun e => e.1) =
        List.range arr.length := by
      simp only [mapEvents, List.map_map]
      have hcomp : ((fun e => e.1) ∘ fun i =>
          ((i : Nat), (Option.none : Option JSVal), f i)) = id := rfl
      rw [hcomp, List.map_id]
    rw [hp.mem_iff, hid, List.mem_range]
  have hinit : StepState.init arr = ⟨arr, [], 0, false⟩ := by
    simp [StepState.init, jsOrList]
  have hfold := par_fold_eq .map evs ⟨⟨arr, [], 0, false⟩, Option.none⟩ hne
    (fun e he => (hforms e he).2.1) rfl (by simpa using hlen)
  simp only [runParStep, hinit]
  rw [hfold]
  have hR : resultFold .map evs [] = (List.range arr.length).map f := by
    have hlenR : (resultFold .map evs []).length = arr.length := by
      have hle : (resultFold .map evs []).length ≤ arr.length :=
        fold_map_length_le arr.length evs []
          (fun e he => (hforms e he).1) (by simp)
      have hge := fold_map_length_ge evs [] (arr.length - 1)
        ((hmem (arr.length - 1)).mpr (by omega))
      omega
    apply List.ext_getElem
    · simp [hlenR]
    · intro i h1 h2
      have hi : i < arr.length := by rw [hlenR] at h1; exact h1
      have hgd := fold_map_getD f evs [] i (fun e he => (hforms e he).2.2)
      rw [if_pos ((hmem i).mpr hi)] at hgd
      rw [← List.getD_eq_getElem _ JSVal.undef h1, hgd]
      simp
  rw [hR]
  rfl

/-- Concrete instance of `map_positional`: input of length 2, completions
arriving in reversed order, values `f i = 10 + i`. -/
theorem map_positional_witness :
    ([((1 : Nat), (Option.none : Option JSVal), JSVal.num 11),
      ((0 : Nat), (Option.none : Option JSVal), JSVal.num 10)].Perm
        (mapEvents (fun i => JSVal.num (10 + i)) [JSVal.str "a", JSVal.str "b"].length))
    ∧ [JSVal.str "a", JSVal.str "b"] ≠ []
    ∧ (runParStep .map [JSVal.str "a", JSVal.str "b"]
        [(1, Option.none, JSVal.num 11), (0, Option.none, JSVal.num 10)]).fin
      = some (Option.none,
          (List.range [JSVal.str "a", JSVal.str "b"].length).map
            (fun i => JSVal.num (10 + i))) :=
  ⟨by decide, by decide,
    map_positional [JSVal.str "a", JSVal.str "b"]
      (fun i => JSVal.num (10 + i))
      [(1, Option.none, JSVal.num 11), (0, Option.none, JSVal.num 10)]
      (by decide) (by decide)⟩

/-- No chain run ever emits a final-callback invocation: the only log
entries are step starts and per-step completion callbacks. -/
theorem finalCb_not_in_chain : ∀ (steps : List ChainStep) (idx : Nat)
    (arr : List JSVal),
    LogEntry.finalCallbackCalled ∉ runChainFrom idx arr steps := by
  intro steps
  induction steps with
  | nil => intro idx arr; simp [runChainFrom]
  | cons cs rest ih =>
      intro idx arr
      simp only [runChainFrom]
      cases hfin : runStepFin cs arr with
      | none => simp
      | some p =>
          obtain ⟨err, res⟩ := p
          cases err with
          | none => simp [ih (idx + 1) res]
          | some e => simp

/-- Claim C10: the execution entry point declares no parameters, so a
final-completion argument passed at the call site never influences the
run — executing with any two arguments gives identical logs — and a final
callback is never invoked: completion is observable only through the
per-step completion callbacks recorded in the log. -/
theorem exec_ignores_final_callback (op : Operation) (c₁ c₂ : JSVal) :
    op.exec c₁ = op.exec c₂
    ∧ LogEntry.finalCallbackCalled ∉ op.exec c₁ := by
  exact ⟨rfl, finalCb_not_in_chain op.steps 0 op.array⟩

/-- Claim C9: re-invoking the execution entry point on the same built
operation is independent and repeatable: a run reads but never writes the
built operation (its source array and step list are unchanged), each run
records its own outcome from a fresh run state, and the second run's
outcome equals the first's. -/
theorem exec_rerun_independent (w : World) (c₁ c₂ : JSVal) :
    (execWorld (execWorld w c₁) c₂).oper = w.oper
    ∧ (execWorld (execWorld w c₁) c₂).runs
        = w.runs ++ [w.oper.exec c₁, w.oper.exec c₂]
    ∧ w.oper.exec c₁ = w.oper.exec c₂ := by
  refine ⟨rfl, ?_, rfl⟩
  simp [execWorld]
